import Mathlib

/-!
# Verification of the HNSW index durability / lifecycle layer

Shallow embedding of `src/hnsw/hnsw_index.cpp`:

* the linked-block stream codec (`LinkedBlockReader`, `LinkedBlockWriter`)
  built over a `FixedSizeAllocator`;
* the `HNSWIndex` wrapper state machine (construct / delete / compact /
  persist / load / drop) around the external usearch graph engine.

Machine bytes are modelled as `Nat` (the codec never interprets payload
bytes, so no width reduction is needed); block pointers are `Nat` with `0`
as the null pointer, matching `IndexPointer::Clear()` / `Get() == 0`.

The fixed-size allocator, and the usearch engine itself, are external
collaborators whose code is not part of this repository's sources; their
definitions below are modelled from the spec's description of their
capability set and are marked as such in their doc comments.
-/

namespace HNSW

/-- One fixed-size block: a forward pointer (`0` = none, mirroring
`IndexPointer::Clear()`) and an opaque data payload, modelled as a total
function from byte offset to byte value (`char data[BLOCK_DATA_SIZE]`). -/
structure LinkedBlock where
  next_block : Nat
  data : Nat → Nat

/-- A block whose pointer is cleared and whose payload is zero-filled. -/
def emptyBlock : LinkedBlock := ⟨0, fun _ => 0⟩

/-- Modelled from the spec: the host's `FixedSizeAllocator` (an external
collaborator, §4.1 "Fixed-Size Block Allocator"), providing typed block
allocation with pointer-based addressing.  `blocks` is the content at each
pointer; `nextFree` counts allocations made so far, so allocated pointers
are `1 .. nextFree` and fresh pointers are always nonzero and distinct from
every previously handed-out pointer. -/
structure AllocState where
  blocks : Nat → LinkedBlock
  nextFree : Nat

/-- `allocator.Get<LinkedBlock>(ptr)`: fetch the block at a pointer. -/
def AllocState.get (a : AllocState) (p : Nat) : LinkedBlock := a.blocks p

/-- Store a block value at a pointer (the effect of mutating the block
obtained from `Get<LinkedBlock>(ptr, true)`). -/
def AllocState.set (a : AllocState) (p : Nat) (b : LinkedBlock) : AllocState :=
  ⟨fun q => if q = p then b else a.blocks q, a.nextFree⟩

/-- `allocator.New()`: hand out a fresh (nonzero) pointer. -/
def AllocState.new (a : AllocState) : Nat × AllocState :=
  (a.nextFree + 1, ⟨a.blocks, a.nextFree + 1⟩)

/-- A freshly constructed allocator owning no blocks
(`GetInfo().buffer_ids` empty). -/
def AllocState.fresh : AllocState := ⟨fun _ => emptyBlock, 0⟩

/-!
## Block sizes

`LinkedBlock::BLOCK_SIZE = Storage::BLOCK_SIZE - sizeof(validity_t)` and
`BLOCK_DATA_SIZE = BLOCK_SIZE - sizeof(IndexPointer)`.  `Storage::BLOCK_SIZE`
is a host-engine constant (262144 in the host the repository builds
against); `validity_t` and `IndexPointer` are both 8 bytes.  The codec
lemmas below are parametric in the payload size `B` (the spec's "block
payload size"), and the index-level definitions instantiate `B` with the
concrete `BLOCK_DATA_SIZE`.
-/

def STORAGE_BLOCK_SIZE : Nat := 262144

def LinkedBlock.BLOCK_SIZE : Nat := STORAGE_BLOCK_SIZE - 8

def LinkedBlock.BLOCK_DATA_SIZE : Nat := LinkedBlock.BLOCK_SIZE - 8

/-!
## LinkedBlockReader

State: the allocator's block store (read-only), a current pointer and a
position inside the current block.  `ReadData`'s loop copies
`min(length - bytes_read, BLOCK_DATA_SIZE - position_in_block)` bytes per
iteration; since no single `memcpy` ever crosses a block boundary, the
loop's semantics is exactly the byte-at-a-time recursion below, with the
boundary step (`position_in_block == BLOCK_DATA_SIZE` resets the position
and follows `next_block`) taken whenever the cumulative position reaches
the payload size.
-/

structure LinkedBlockReader where
  blocks : Nat → LinkedBlock
  current_pointer : Nat
  position_in_block : Nat

/-- One byte of `LinkedBlockReader::ReadData`: read the byte at the current
position, advance, and follow `next_block` when the block is exhausted. -/
def readByte (B : Nat) (r : LinkedBlockReader) : Nat × LinkedBlockReader :=
  let blk := r.blocks r.current_pointer
  let b := blk.data r.position_in_block
  if r.position_in_block + 1 = B then
    (b, ⟨r.blocks, blk.next_block, 0⟩)
  else
    (b, ⟨r.blocks, r.current_pointer, r.position_in_block + 1⟩)

/-- `LinkedBlockReader::ReadData(buffer, length)`: the loop runs until
exactly `length` bytes have been copied, following forward pointers with no
validity checks.  Returns the bytes read and the reader's final state. -/
def readData (B : Nat) (r : LinkedBlockReader) : Nat → List Nat × LinkedBlockReader
  | 0 => ([], r)
  | n + 1 =>
    let p := readByte B r
    let q := readData B p.2 n
    (p.1 :: q.1, q.2)

/-!
## LinkedBlockWriter

Same layout as the reader, but it mutates the allocator's store, so the
allocator state is threaded through.  At a block boundary `WriteData`
allocates a fresh block, links it from the finished block, moves to it and
zero-clears it (`ClearCurrentBlock`).
-/

structure LinkedBlockWriter where
  alloc : AllocState
  root_pointer : Nat
  current_pointer : Nat
  position_in_block : Nat

/-- `LinkedBlockWriter::ClearCurrentBlock()`: clear the current block's
forward pointer and zero-fill its payload. -/
def LinkedBlockWriter.clearCurrentBlock (w : LinkedBlockWriter) : LinkedBlockWriter :=
  ⟨w.alloc.set w.current_pointer emptyBlock, w.root_pointer, w.current_pointer, w.position_in_block⟩

/-- `LinkedBlockWriter::Reset()`: rewind to the root block and zero-fill
it, discarding the previously written chain contents from the root on. -/
def LinkedBlockWriter.reset (w : LinkedBlockWriter) : LinkedBlockWriter :=
  LinkedBlockWriter.clearCurrentBlock ⟨w.alloc, w.root_pointer, w.root_pointer, 0⟩

/-- A `LinkedBlockWriter(allocator, root_pointer)` as constructed: current
pointer at the root, position `0`. -/
def LinkedBlockWriter.make (a : AllocState) (root : Nat) : LinkedBlockWriter :=
  ⟨a, root, root, 0⟩

/-- One byte of `LinkedBlockWriter::WriteData`: store the byte at the
current position; if the block just filled (`position_in_block ==
BLOCK_DATA_SIZE`) allocate a fresh block, link it from the filled block,
move to it and zero-clear it.  As for `ReadData`, no single `memcpy` in the
source loop crosses a block boundary, so the loop is exactly this
recursion iterated over the buffer. -/
def writeByte (B : Nat) (w : LinkedBlockWriter) (b : Nat) : LinkedBlockWriter :=
  let blk := w.alloc.get w.current_pointer
  let blk1 : LinkedBlock := ⟨blk.next_block, fun i => if i = w.position_in_block then b else blk.data i⟩
  let a1 := w.alloc.set w.current_pointer blk1
  if w.position_in_block + 1 = B then
    let p := a1.new.1
    let a2 := a1.new.2
    let a3 := a2.set w.current_pointer ⟨p, blk1.data⟩
    LinkedBlockWriter.clearCurrentBlock ⟨a3, w.root_pointer, p, 0⟩
  else
    ⟨a1, w.root_pointer, w.current_pointer, w.position_in_block + 1⟩

/-- `LinkedBlockWriter::WriteData(buffer, length)`: append the buffer's
bytes starting at the writer's current position. -/
def writeData (B : Nat) (w : LinkedBlockWriter) : List Nat → LinkedBlockWriter
  | [] => w
  | b :: bs => writeData B (writeByte B w b) bs

/-- The short-read corruption check inside the `load_from_stream` callback
(`return size == reader.ReadData(static_cast<data_ptr_t>(data), size);`):
compare the requested size with the number of bytes `ReadData` returned. -/
def loadStreamCheck (B : Nat) (r : LinkedBlockReader) (size : Nat) : Bool :=
  size == (readData B r size).1.length

/-!
### Basic reader lemmas
-/

/-- `ReadData` returns exactly as many bytes as requested. -/
theorem readData_length (B : Nat) (r : LinkedBlockReader) (n : Nat) :
    (readData B r n).1.length = n := by
  induction n generalizing r with
  | zero => rfl
  | succ n ih => simp [readData, ih]

/-- Reading `n + 1` bytes is reading `n` bytes and then one more. -/
theorem readData_snoc (B : Nat) (r : LinkedBlockReader) (n : Nat) :
    readData B r (n + 1) =
      ((readData B r n).1 ++ [(readByte B (readData B r n).2).1],
        (readByte B (readData B r n).2).2) := by
  induction n generalizing r with
  | zero => simp [readData]
  | succ n ih =>
    conv_lhs => rw [readData]
    conv_rhs => rw [readData]
    rw [ih]
    simp

/-- Reading `m + n` bytes is reading `m` bytes and then `n` bytes. -/
theorem readData_add (B : Nat) (r : LinkedBlockReader) (m n : Nat) :
    readData B r (m + n) =
      ((readData B r m).1 ++ (readData B (readData B r m).2 n).1,
        (readData B (readData B r m).2 n).2) := by
  induction m generalizing r with
  | zero => simp [readData]
  | succ m ih =>
    rw [Nat.succ_add, readData, readData, ih (readByte B r).2]
    simp [readData]

/-!
### Writer / reader simulation

`ReadsBack` is a frame-tolerant description of what a writer has laid down:
reading back the bytes written so far succeeds not only in the writer's own
block store but in any store that agrees with it on every allocated pointer
other than the writer's current block, and on the already-written prefix of
the current block's payload.  This is exactly the part of the store that
future writes never touch, which is what makes the invariant inductive.
-/

def ReadsBack (B root : Nat) (done : List Nat) (cur pos nf : Nat)
    (blocks : Nat → LinkedBlock) : Prop :=
  ∀ blocks' : Nat → LinkedBlock,
    (∀ p, p ≠ cur → p ≤ nf → blocks' p = blocks p) →
    (∀ i, i < pos → (blocks' cur).data i = (blocks cur).data i) →
    readData B ⟨blocks', root, 0⟩ done.length = (done, ⟨blocks', cur, pos⟩)

/-- Invariant of a writer that has written `done` since its `Reset()`. -/
def WInv (B : Nat) (done : List Nat) (w : LinkedBlockWriter) : Prop :=
  w.position_in_block < B ∧
  w.current_pointer ≤ w.alloc.nextFree ∧
  ReadsBack B w.root_pointer done w.current_pointer w.position_in_block
    w.alloc.nextFree w.alloc.blocks

theorem writeByte_inv {B : Nat} {done : List Nat} {w : LinkedBlockWriter} (b : Nat)
    (h : WInv B done w) : WInv B (done ++ [b]) (writeByte B w b) := by
  obtain ⟨⟨blocks, nf⟩, root, cur, pos⟩ := w
  obtain ⟨hpos, hcur, hread⟩ := h
  simp only [WInv, ReadsBack] at *
  by_cases hb : pos + 1 = B
  · -- the current block filled exactly: allocate, link, clear
    have hcurne : cur ≠ nf + 1 := Nat.ne_of_lt (Nat.lt_succ_of_le hcur)
    simp only [writeByte, AllocState.get, AllocState.set, AllocState.new,
      LinkedBlockWriter.clearCurrentBlock, if_pos hb]
    refine ⟨lt_of_le_of_lt (Nat.zero_le pos) hpos, Nat.le_refl _, ?_⟩
    intro blocks' hag _
    have hbc : blocks' cur =
        ⟨nf + 1, fun i => if i = pos then b else (blocks cur).data i⟩ := by
      have := hag cur hcurne (Nat.le_succ_of_le hcur)
      simpa [hcurne] using this
    have hprev := hread blocks'
      (fun p hp hple => by
        have hpne : p ≠ nf + 1 := Nat.ne_of_lt (Nat.lt_succ_of_le hple)
        have := hag p hpne (Nat.le_succ_of_le hple)
        simpa [hpne, hp] using this)
      (fun i hi => by
        rw [hbc]
        simp [Nat.ne_of_lt hi])
    rw [List.length_append, List.length_singleton, readData_snoc, hprev]
    simp [readByte, hbc, hb]
  · -- still inside the current block
    simp only [writeByte, AllocState.get, AllocState.set, AllocState.new,
      LinkedBlockWriter.clearCurrentBlock, if_neg hb]
    refine ⟨Nat.lt_of_le_of_ne (Nat.succ_le_of_lt hpos) hb, hcur, ?_⟩
    intro blocks' hag hdat
    have hbc : (blocks' cur).data pos = b := by
      have := hdat pos (Nat.lt_succ_self pos)
      simpa using this
    have hprev := hread blocks'
      (fun p hp hple => by
        have := hag p hp hple
        simpa [hp] using this)
      (fun i hi => by
        have := hdat i (Nat.lt_succ_of_lt hi)
        simpa [Nat.ne_of_lt hi] using this)
    rw [List.length_append, List.length_singleton, readData_snoc, hprev]
    simp [readByte, hbc, hb]

theorem writeData_inv {B : Nat} (bs : List Nat) {done : List Nat} {w : LinkedBlockWriter}
    (h : WInv B done w) : WInv B (done ++ bs) (writeData B w bs) := by
  induction bs generalizing done w with
  | nil => simpa [writeData] using h
  | cons b bs ih =>
    have h2 := ih (writeByte_inv b h)
    simpa [writeData] using h2

theorem reset_inv {B : Nat} (hB : 0 < B) (a : AllocState) (root : Nat)
    (hroot : root ≤ a.nextFree) :
    WInv B [] (LinkedBlockWriter.reset (LinkedBlockWriter.make a root)) := by
  refine ⟨hB, hroot, ?_⟩
  intro blocks' _ _
  rfl

theorem writeByte_root (B : Nat) (w : LinkedBlockWriter) (b : Nat) :
    (writeByte B w b).root_pointer = w.root_pointer := by
  obtain ⟨⟨blocks, nf⟩, root, cur, pos⟩ := w
  by_cases hb : pos + 1 = B <;>
    simp [writeByte, AllocState.get, AllocState.set, AllocState.new,
      LinkedBlockWriter.clearCurrentBlock, hb]

theorem writeData_root (B : Nat) (bs : List Nat) (w : LinkedBlockWriter) :
    (writeData B w bs).root_pointer = w.root_pointer := by
  induction bs generalizing w with
  | nil => rfl
  | cons b bs ih => rw [writeData, ih, writeByte_root]

/-- Write-then-read round trip over the block chain: the workhorse behind
the block-chain fidelity and persist/reload results. -/
theorem writeData_readData_roundtrip (B : Nat) (a : AllocState) (root : Nat) (buf : List Nat)
    (hB : 0 < B) (hroot : root ≤ a.nextFree) :
    (readData B
      ⟨(writeData B (LinkedBlockWriter.reset (LinkedBlockWriter.make a root)) buf).alloc.blocks,
        root, 0⟩ buf.length).1 = buf := by
  have h := writeData_inv buf (reset_inv hB a root hroot)
  obtain ⟨_, _, hread⟩ := h
  have hr := hread
    (writeData B (LinkedBlockWriter.reset (LinkedBlockWriter.make a root)) buf).alloc.blocks
    (fun _ _ _ => rfl) (fun _ _ => rfl)
  rw [writeData_root] at hr
  have hroot2 : (LinkedBlockWriter.reset (LinkedBlockWriter.make a root)).root_pointer = root := rfl
  rw [hroot2] at hr
  simpa using congrArg Prod.fst hr

/-- C1: Block chain round-trip fidelity.  For every byte stream `buf` (of
any length: zero, one, payload-size offsets and exact block-payload
multiples included) and any block payload size `B > 0`: after `Reset()`
clears the root block and `WriteData` writes the stream, a
`LinkedBlockReader` starting at the same root pointer reads back exactly
`buf` with `ReadData(buf.length)`.  The only requirement on the starting
allocator is that the root pointer was handed out by it
(`root ≤ nextFree`), so fresh blocks never alias the chain. -/
theorem C1_block_chain_roundtrip (B : Nat) (a : AllocState) (root : Nat) (buf : List Nat)
    (hB : 0 < B) (hroot : root ≤ a.nextFree) :
    (readData B
      ⟨(writeData B (LinkedBlockWriter.reset (LinkedBlockWriter.make a root)) buf).alloc.blocks,
        root, 0⟩ buf.length).1 = buf :=
  writeData_readData_roundtrip B a root buf hB hroot

/-!
### Allocation counting (for the exact-boundary behaviour)
-/

theorem writeByte_proj (B : Nat) (w : LinkedBlockWriter) (b : Nat) :
    (writeByte B w b).alloc.nextFree =
        (if w.position_in_block + 1 = B then w.alloc.nextFree + 1 else w.alloc.nextFree) ∧
      (writeByte B w b).position_in_block =
        (if w.position_in_block + 1 = B then 0 else w.position_in_block + 1) ∧
      (writeByte B w b).current_pointer =
        (if w.position_in_block + 1 = B then w.alloc.nextFree + 1 else w.current_pointer) := by
  obtain ⟨⟨blocks, nf⟩, root, cur, pos⟩ := w
  by_cases hb : pos + 1 = B <;>
    simp [writeByte, AllocState.get, AllocState.set, AllocState.new,
      LinkedBlockWriter.clearCurrentBlock, hb]

/-- `WriteData` allocates one fresh block per completed payload-size
boundary and ends at the corresponding in-block position. -/
theorem writeData_count (B : Nat) (bs : List Nat) (w : LinkedBlockWriter)
    (h : w.position_in_block < B) :
    (writeData B w bs).alloc.nextFree =
        w.alloc.nextFree + (w.position_in_block + bs.length) / B ∧
      (writeData B w bs).position_in_block = (w.position_in_block + bs.length) % B := by
  induction bs generalizing w with
  | nil =>
    simp [writeData, Nat.div_eq_of_lt h, Nat.mod_eq_of_lt h]
  | cons b bs ih =>
    obtain ⟨hnf, hpos, _⟩ := writeByte_proj B w b
    by_cases hb : w.position_in_block + 1 = B
    · have hB : 0 < B := lt_of_le_of_lt (Nat.zero_le _) h
      have hlt : (writeByte B w b).position_in_block < B := by rw [hpos, if_pos hb]; exact hB
      obtain ⟨ih1, ih2⟩ := ih (writeByte B w b) hlt
      simp only [hnf, hpos, if_pos hb, Nat.zero_add] at ih1 ih2
      have hsum : w.position_in_block + (bs.length + 1) = bs.length + B := by omega
      constructor
      · rw [writeData, List.length_cons, hsum, Nat.add_div_right _ hB, ih1]
        ring
      · rw [writeData, List.length_cons, hsum, Nat.add_mod_right]
        exact ih2
    · have hlt : (writeByte B w b).position_in_block < B := by
        rw [hpos, if_neg hb]
        exact Nat.lt_of_le_of_ne (Nat.succ_le_of_lt h) hb
      obtain ⟨ih1, ih2⟩ := ih (writeByte B w b) hlt
      simp only [hnf, hpos, if_neg hb] at ih1 ih2
      have hsum : w.position_in_block + 1 + bs.length = w.position_in_block + (bs.length + 1) := by
        omega
      rw [hsum] at ih1 ih2
      exact ⟨by rw [writeData, List.length_cons]; exact ih1,
        by rw [writeData, List.length_cons]; exact ih2⟩

/-- When a nonempty write ends exactly on a payload-size boundary, the
writer has just allocated and zero-cleared a fresh trailing block: it sits
at position `0` of the most recently allocated pointer, whose payload is
all zeros and whose forward pointer is cleared. -/
theorem writeData_last_block (B : Nat) (bs : List Nat) (w : LinkedBlockWriter)
    (h : w.position_in_block < B) (hne : bs ≠ [])
    (hmod : (w.position_in_block + bs.length) % B = 0) :
    (writeData B w bs).position_in_block = 0 ∧
      (writeData B w bs).current_pointer = (writeData B w bs).alloc.nextFree ∧
      w.alloc.nextFree < (writeData B w bs).alloc.nextFree ∧
      (writeData B w bs).alloc.blocks (writeData B w bs).current_pointer = emptyBlock := by
  induction bs generalizing w with
  | nil => exact absurd rfl hne
  | cons b bs ih =>
    by_cases hbs : bs = []
    · subst hbs
      have hb : w.position_in_block + 1 = B := by
        rcases Nat.lt_or_ge (w.position_in_block + 1) B with hlt | hge
        · rw [List.length_cons, List.length_nil] at hmod
          rw [Nat.mod_eq_of_lt hlt] at hmod
          exact absurd hmod (Nat.succ_ne_zero _)
        · exact Nat.le_antisymm (Nat.succ_le_of_lt h) hge
      obtain ⟨⟨blocks, nf⟩, root, cur, pos⟩ := w
      simp [writeData, writeByte, AllocState.get, AllocState.set, AllocState.new,
        LinkedBlockWriter.clearCurrentBlock, hb]
    · obtain ⟨hnf, hpos, _⟩ := writeByte_proj B w b
      have hB : 0 < B := lt_of_le_of_lt (Nat.zero_le _) h
      have hlt : (writeByte B w b).position_in_block < B := by
        by_cases hb : w.position_in_block + 1 = B
        · rw [hpos, if_pos hb]; exact hB
        · rw [hpos, if_neg hb]; exact Nat.lt_of_le_of_ne (Nat.succ_le_of_lt h) hb
      have hmod' : ((writeByte B w b).position_in_block + bs.length) % B = 0 := by
        by_cases hb : w.position_in_block + 1 = B
        · rw [hpos, if_pos hb]
          have hsum : w.position_in_block + (bs.length + 1) = bs.length + B := by omega
          rw [List.length_cons, hsum, Nat.add_mod_right] at hmod
          simpa using hmod
        · rw [hpos, if_neg hb]
          have hsum : w.position_in_block + 1 + bs.length =
              w.position_in_block + (bs.length + 1) := by omega
          rw [hsum]
          rw [List.length_cons] at hmod
          exact hmod
      obtain ⟨ih1, ih2, ih3, ih4⟩ := ih (writeByte B w b) hlt hbs hmod'
      refine ⟨by rw [writeData]; exact ih1, by rw [writeData]; exact ih2, ?_,
        by rw [writeData]; exact ih4⟩
      rw [writeData]
      have : w.alloc.nextFree ≤ (writeByte B w b).alloc.nextFree := by
        rw [hnf]; split <;> omega
      exact lt_of_le_of_lt this ih3

/-- C9 (implicit): exact-boundary over-allocation.  A write of exactly
`k * B` bytes (`k ≥ 1`, payload size `B`) after `Reset()` allocates exactly
`k` fresh blocks — so together with the root the stream occupies `k + 1`
blocks — and leaves the writer at position `0` of the last freshly
allocated block, which is linked in, zero-cleared, and holds no payload
byte of the stream. -/
theorem C9_exact_boundary_overallocation (B k : Nat) (a : AllocState) (root : Nat)
    (buf : List Nat) (hB : 0 < B) (hk : 0 < k) (hroot : root ≤ a.nextFree)
    (hlen : buf.length = k * B) :
    (writeData B (LinkedBlockWriter.reset (LinkedBlockWriter.make a root)) buf).alloc.nextFree
        = a.nextFree + k ∧
      (writeData B (LinkedBlockWriter.reset (LinkedBlockWriter.make a root)) buf).position_in_block
        = 0 ∧
      (writeData B (LinkedBlockWriter.reset (LinkedBlockWriter.make a root)) buf).current_pointer
        = (writeData B (LinkedBlockWriter.reset (LinkedBlockWriter.make a root)) buf).alloc.nextFree ∧
      root <
        (writeData B (LinkedBlockWriter.reset (LinkedBlockWriter.make a root)) buf).current_pointer ∧
      (writeData B (LinkedBlockWriter.reset (LinkedBlockWriter.make a root)) buf).alloc.blocks
          ((writeData B (LinkedBlockWriter.reset (LinkedBlockWriter.make a root)) buf).current_pointer)
        = emptyBlock := by
  set w0 := LinkedBlockWriter.reset (LinkedBlockWriter.make a root) with hw0
  have hpos0 : w0.position_in_block = 0 := rfl
  have hnf0 : w0.alloc.nextFree = a.nextFree := rfl
  have hposlt : w0.position_in_block < B := by rw [hpos0]; exact hB
  have hne : buf ≠ [] := by
    intro hcon
    rw [hcon] at hlen
    simp at hlen
    rcases hlen with h1 | h1 <;> omega
  have hmod : (w0.position_in_block + buf.length) % B = 0 := by
    rw [hpos0, hlen, Nat.zero_add]
    exact Nat.mul_mod_left k B
  obtain ⟨hc1, hc2⟩ := writeData_count B buf w0 hposlt
  obtain ⟨hl1, hl2, hl3, hl4⟩ := writeData_last_block B buf w0 hposlt hne hmod
  rw [hpos0, hnf0, hlen, Nat.zero_add, Nat.mul_div_cancel _ hB] at hc1
  refine ⟨hc1, hl1, hl2, ?_, hl4⟩
  rw [hl2, hc1]
  omega

/-!
## The graph engine (usearch `index_dense_t`) — spec model

The engine's sources are not part of this repository (it is the external
vector-similarity library the spec's §1/§5 place out of scope).  The
definitions in this section are therefore modelled from the spec's
description of its capability set (§9: `insert`, `search`, `remove`,
`reserve`, `compact`, `save_to_stream`, `load_from_stream`, `size`,
`capacity`).
-/

/-- Modelled from the spec: the black-box graph/metric engine
(`unum::usearch::index_dense_t`).  Abstract state: the sequence of
(row identifier, vector) pairs it holds, most recently inserted first,
plus its reserved capacity.  Vector scalars are abstracted to `Int`; the
wrapper never interprets them. -/
@[ext]
structure Engine where
  keys : List (Int × List Int)
  cap : Nat
  deriving DecidableEq

/-- `index.size()`. -/
def Engine.size (e : Engine) : Nat := e.keys.length

/-- `index.capacity()`. -/
def Engine.capacity (e : Engine) : Nat := e.cap

/-- Modelled from the spec: `index.reserve(n)` grows the reserved capacity
to at least `n`, never shrinking it. -/
def Engine.reserve (e : Engine) (n : Nat) : Engine := ⟨e.keys, max e.cap n⟩

/-- Modelled from the spec: `index.add(key, vector, thread)`.  Fails when
no reserved capacity is left (the insertion-failure mode §4.2 requires the
wrapper to surface); otherwise records the pair.  The thread slot is
engine-internal bookkeeping with no effect on the abstract state. -/
def Engine.add (e : Engine) (rid : Int) (vec : List Int) (_thread_idx : Nat) :
    Except String Engine :=
  if e.keys.length < e.cap then .ok ⟨(rid, vec) :: e.keys, e.cap⟩
  else .error "Reserve capacity ahead of insertions"

/-- Modelled from the spec: `index.remove(key)` removes the entries
carrying the given identifier; removing an absent identifier is a
defensive no-op and never fails (§4.2). -/
def Engine.remove (e : Engine) (rid : Int) : Engine :=
  ⟨e.keys.filter (fun kv => kv.1 != rid), e.cap⟩

/-- Modelled from the spec: the squared-Euclidean distance (`l2sq`, the
source's default metric, `hnsw_index.cpp:152`) on the abstracted integer
scalars, compared componentwise. -/
def distSq (q v : List Int) : Int :=
  (List.zipWith (fun a b => (a - b) * (a - b)) q v).sum

/-- Modelled from the spec: `index.search(query, limit)` "returns up to
`result_limit` row identifiers ordered by increasing distance (best match
first)" (§4.2): the stored pairs sorted by ascending distance to the query
(ties in engine-internal order, which the claims must not rely on) and cut
to `limit`. -/
def Engine.search (e : Engine) (q : List Int) (limit : Nat) : List Int :=
  ((e.keys.insertionSort (fun a b => distSq q a.2 ≤ distSq q b.2)).map Prod.fst).take limit

/-- Modelled from the spec: `index.compact()` structurally reorganizes the
graph without changing membership or element count (§4.2 "reclaiming space
after many deletions"; the abstract model always succeeds). -/
def Engine.compact (e : Engine) : Engine := e

/-- `index.reset()`: discard all elements and reserved capacity. -/
def Engine.reset (_e : Engine) : Engine := ⟨[], 0⟩

/-- `index_dense_t::make(metric, config)`: a fresh empty engine. -/
def Engine.make : Engine := ⟨[], 0⟩

/-!
### The engine's serialization stream (spec model)

Per §6 the persisted payload is "an opaque byte stream whose
interpretation is entirely owned by the black-box graph engine's own
serialization format", and per §9 that format is self-describing.  The
model makes it concrete and injective: a leading length byte, then
capacity, element count, and the stored pairs (identifiers zigzag-embedded
into stream bytes).
-/

/-- Lossless embedding of a row identifier into a stream byte. -/
def encInt (i : Int) : Nat := if 0 ≤ i then 2 * i.toNat else 2 * (-i).toNat - 1

/-- Inverse of `encInt`. -/
def decInt (n : Nat) : Int := if n % 2 = 0 then (n / 2 : Int) else -((n / 2 + 1 : Nat) : Int)

theorem decInt_encInt (i : Int) : decInt (encInt i) = i := by
  unfold decInt encInt
  split_ifs <;> omega

/-- Serialized form of the stored pairs. -/
def encKeys : List (Int × List Int) → List Nat
  | [] => []
  | (r, v) :: rest => encInt r :: v.length :: (v.map encInt ++ encKeys rest)

/-- Deserialize `k` pairs from a stream suffix. -/
def decKeys : Nat → List Nat → List (Int × List Int)
  | 0, _ => []
  | k + 1, r :: n :: rest => (decInt r, (rest.take n).map decInt) :: decKeys k (rest.drop n)
  | _ + 1, [] => []
  | _ + 1, [_] => []

/-- Modelled from the spec: the engine's serialization payload. -/
def enginePayload (e : Engine) : List Nat := e.cap :: e.keys.length :: encKeys e.keys

/-- `index.save_to_stream`: the emitted byte stream, self-describing via a
leading payload-length byte. -/
def encodeEngine (e : Engine) : List Nat := (enginePayload e).length :: enginePayload e

/-- Deserialize a payload back into an engine state. -/
def decodePayload : List Nat → Engine
  | cap :: n :: rest => ⟨decKeys n rest, cap⟩
  | _ => ⟨[], 0⟩

/-- `index.load_from_stream(callback)`: pull the self-describing stream
through a `LinkedBlockReader` rooted at `root` and replace the engine
state with the deserialized one. -/
def loadFromStream (blocks : Nat → LinkedBlock) (root : Nat) : Engine :=
  let r0 : LinkedBlockReader := ⟨blocks, root, 0⟩
  let hdr := readData LinkedBlock.BLOCK_DATA_SIZE r0 1
  let pl := readData LinkedBlock.BLOCK_DATA_SIZE hdr.2 (hdr.1.headD 0)
  decodePayload pl.1

theorem decKeys_encKeys (ks : List (Int × List Int)) (t : List Nat) :
    decKeys ks.length (encKeys ks ++ t) = ks := by
  induction ks generalizing t with
  | nil => rfl
  | cons kv rest ih =>
    obtain ⟨r, v⟩ := kv
    rw [List.length_cons, encKeys]
    show decKeys (rest.length + 1) (encInt r :: v.length :: ((v.map encInt ++ encKeys rest) ++ t)) = _
    rw [decKeys, List.append_assoc,
      List.take_left' (by rw [List.length_map]),
      List.drop_left' (by rw [List.length_map]),
      ih t, List.map_map]
    have hcomp : decInt ∘ encInt = id := funext decInt_encInt
    rw [hcomp, List.map_id, decInt_encInt r]

theorem decodePayload_enginePayload (e : Engine) :
    decodePayload (enginePayload e) = e := by
  obtain ⟨ks, cap⟩ := e
  show decodePayload (cap :: ks.length :: encKeys ks) = _
  rw [decodePayload]
  have h := decKeys_encKeys ks []
  rw [List.append_nil] at h
  rw [h]

/-!
## HNSWIndex state machine

The wrapper state the lifecycle claims concern, and the operations of
`hnsw_index.cpp`, embedded sequentially (the reader-writer lock and the
atomic counter serialize to plain state threading in a single-threaded
interleaving; the lock acquisitions themselves have no further effect on
the state).
-/

/-- The `HNSWIndex` fields the claims concern: the wrapped engine, the
atomic element-count cache `index_size`, the dirty flag, the root pointer
of the serialized stream (`0` = none) and the linked-block allocator.
`is_dirty`'s initializer lives in the class header, which is not among the
repository sources; modelled from the spec: the initial lifecycle state is
Clean. -/
structure HNSWState where
  engine : Engine
  index_size : Nat
  is_dirty : Bool
  root_block_ptr : Nat
  alloc : AllocState

/-- The persisted storage descriptor: root pointer plus the allocator
metadata (`GetInfo()`), of which the load path inspects whether
`buffer_ids` is empty — i.e. whether the allocator ever allocated a
block. -/
structure IndexStorageInfo where
  root : Nat
  blocks : Nat → LinkedBlock
  nextFree : Nat

/-- `info.allocator_infos[0].buffer_ids.empty()`: no block was ever
allocated by the persisted allocator. -/
def IndexStorageInfo.buffersEmpty (info : IndexStorageInfo) : Bool :=
  info.nextFree == 0

/-- The constructor's fresh-index branch (`info.IsValid()` false):
`index.reserve(MinValue(32, estimated_cardinality))`, null root pointer,
fresh allocator, `index_size = index.size()`, Clean. -/
def HNSWIndex.create (estimated_cardinality : Nat) : HNSWState :=
  let e := Engine.make.reserve (min 32 estimated_cardinality)
  ⟨e, e.size, false, 0, AllocState.fresh⟩

/-- The constructor's load branch (`info.IsValid()` true): restore the
root pointer and the allocator, deserialize through a `LinkedBlockReader`
only when the allocator metadata records at least one allocated block,
otherwise keep the freshly made empty engine; cache
`index_size = index.size()`; loading does not dirty the index. -/
def HNSWIndex.load (info : IndexStorageInfo) : HNSWState :=
  let e := if info.buffersEmpty then Engine.make
           else loadFromStream info.blocks info.root
  ⟨e, e.size, false, info.root, ⟨info.blocks, info.nextFree⟩⟩

/-- `HNSWIndex::PersistToDisk()`: a no-op when the index is not dirty;
otherwise allocate a root block if none exists, `Reset()` the writer and
stream `index.save_to_stream` through `WriteData`, then clear the dirty
flag. -/
def HNSWIndex.PersistToDisk (st : HNSWState) : HNSWState :=
  if st.is_dirty = false then st
  else
    let ra := if st.root_block_ptr = 0 then st.alloc.new else (st.root_block_ptr, st.alloc)
    let w := writeData LinkedBlock.BLOCK_DATA_SIZE
      (LinkedBlockWriter.reset (LinkedBlockWriter.make ra.2 ra.1)) (encodeEngine st.engine)
    ⟨st.engine, st.index_size, false, ra.1, w.alloc⟩

/-- `HNSWIndex::GetStorageInfo` (block-manager mode): persist first —
ensuring no dirty state is silently dropped — then hand out the
descriptor. -/
def HNSWIndex.GetStorageInfo (st : HNSWState) : HNSWState × IndexStorageInfo :=
  let st' := HNSWIndex.PersistToDisk st
  (st', ⟨st'.root_block_ptr, st'.alloc.blocks, st'.alloc.nextFree⟩)

/-- Fuel-driven doubling loop behind `NextPowerOfTwo`. -/
def nextPowerOfTwoAux (n : Nat) : Nat → Nat → Nat
  | 0, acc => acc
  | f + 1, acc => if n ≤ acc then acc else nextPowerOfTwoAux n f (2 * acc)

/-- `NextPowerOfTwo` (host utility, not among the repository sources).
Modelled from the spec: "grow capacity to the next power of two ≥ the new
element count" — the least power of two ≥ `n`, see `NextPowerOfTwo_spec`. -/
def NextPowerOfTwo (n : Nat) : Nat := nextPowerOfTwoAux n n 1

/-- The insert loop of `HNSWIndex::Construct`: `index.add` each pair in
order; the first engine failure raises the internal-consistency error,
with the pairs already applied left in place (no rollback). -/
def addAll (e : Engine) (thread_idx : Nat) : List (Int × List Int) → Engine × Option String
  | [] => (e, none)
  | (rid, vec) :: rest =>
    match e.add rid vec thread_idx with
    | .ok e2 => addAll e2 thread_idx rest
    | .error msg => (e, some ("Failed to add to the HNSW index: " ++ msg))

/-- The two-phase capacity check of `HNSWIndex::Construct`: the optimistic
shared-lock check compares the post-batch count (old cached size plus the
batch count, via `fetch_add`) against the capacity; only on a shortfall is
the exclusive re-check performed, which resizes iff the cached size still
exceeds the capacity. -/
def constructResize (st : HNSWState) (count : Nat) : Engine :=
  let needs_resize := st.index_size + count > st.engine.capacity
  if needs_resize then
    if st.index_size + count > st.engine.capacity then
      st.engine.reserve (NextPowerOfTwo (st.index_size + count))
    else st.engine
  else st.engine

/-- `HNSWIndex::Construct(input, row_ids, thread_idx)`: mark dirty, bump
the cached size by the batch count, run the two-phase capacity check, then
insert every pair; an engine insertion failure surfaces as an error, with
the partial inserts retained in the returned state. -/
def HNSWIndex.Construct (st : HNSWState) (batch : List (Int × List Int)) (thread_idx : Nat) :
    HNSWState × Option String :=
  let count := batch.length
  let e1 := constructResize st count
  let r := addAll e1 thread_idx batch
  (⟨r.1, st.index_size + count, true, st.root_block_ptr, st.alloc⟩, r.2)

/-- The removal loop of `HNSWIndex::Delete`: `index.remove(row_id)` for
each identifier in order, each result ignored. -/
def removeAll (e : Engine) (rids : List Int) : Engine :=
  rids.foldl Engine.remove e

/-- `HNSWIndex::Delete(lock, input, rowid_vec)`: mark dirty, remove each
identifier (ignoring the per-identifier engine result, so an absent
identifier never fails the call), then re-sync the cached size from
`index.size()`. -/
def HNSWIndex.Delete (st : HNSWState) (rids : List Int) : HNSWState :=
  let e := removeAll st.engine rids
  ⟨e, e.size, true, st.root_block_ptr, st.alloc⟩

/-- `HNSWIndex::Compact()`: mark dirty, `index.compact()`, re-sync the
cached size. -/
def HNSWIndex.Compact (st : HNSWState) : HNSWState :=
  let e := st.engine.compact
  ⟨e, e.size, true, st.root_block_ptr, st.alloc⟩

/-- `HNSWIndex::CommitDrop`: reset the engine, zero the cached size, reset
the allocator and clear the root pointer (the dirty flag is left as
is). -/
def HNSWIndex.CommitDrop (st : HNSWState) : HNSWState :=
  ⟨st.engine.reset, 0, st.is_dirty, 0, AllocState.fresh⟩

/-!
## Lifecycle lemmas
-/

theorem BLOCK_DATA_SIZE_pos : 0 < LinkedBlock.BLOCK_DATA_SIZE := by decide

theorem persist_clean (st : HNSWState) (h : st.is_dirty = false) :
    HNSWIndex.PersistToDisk st = st := by
  simp [HNSWIndex.PersistToDisk, h]

theorem persist_dirty_eq (st : HNSWState) (hd : st.is_dirty = true) :
    HNSWIndex.PersistToDisk st =
      ⟨st.engine, st.index_size, false,
        (if st.root_block_ptr = 0 then st.alloc.new else (st.root_block_ptr, st.alloc)).1,
        (writeData LinkedBlock.BLOCK_DATA_SIZE
          (LinkedBlockWriter.reset (LinkedBlockWriter.make
            (if st.root_block_ptr = 0 then st.alloc.new else (st.root_block_ptr, st.alloc)).2
            (if st.root_block_ptr = 0 then st.alloc.new else (st.root_block_ptr, st.alloc)).1))
          (encodeEngine st.engine)).alloc⟩ := by
  rw [HNSWIndex.PersistToDisk, if_neg (by simp [hd])]

theorem persist_not_dirty (st : HNSWState) :
    (HNSWIndex.PersistToDisk st).is_dirty = false := by
  by_cases h : st.is_dirty = false
  · rw [persist_clean st h]; exact h
  · rw [persist_dirty_eq st (by revert h; cases st.is_dirty <;> simp)]

theorem persist_idem (st : HNSWState) :
    HNSWIndex.PersistToDisk (HNSWIndex.PersistToDisk st) = HNSWIndex.PersistToDisk st :=
  persist_clean _ (persist_not_dirty st)

theorem writeByte_nextFree_le (B : Nat) (w : LinkedBlockWriter) (b : Nat) :
    w.alloc.nextFree ≤ (writeByte B w b).alloc.nextFree := by
  obtain ⟨h1, _, _⟩ := writeByte_proj B w b
  rw [h1]
  split <;> omega

theorem writeData_nextFree_le (B : Nat) (bs : List Nat) (w : LinkedBlockWriter) :
    w.alloc.nextFree ≤ (writeData B w bs).alloc.nextFree := by
  induction bs generalizing w with
  | nil => exact Nat.le_refl _
  | cons b bs ih =>
    exact le_trans (writeByte_nextFree_le B w b) (by rw [writeData]; exact ih _)

/-- Writing the engine's stream after a reset and streaming it back
through `load_from_stream` recovers the engine state. -/
theorem persist_roundtrip_core (a : AllocState) (root : Nat) (e : Engine)
    (hroot : root ≤ a.nextFree) :
    loadFromStream
      (writeData LinkedBlock.BLOCK_DATA_SIZE
        (LinkedBlockWriter.reset (LinkedBlockWriter.make a root)) (encodeEngine e)).alloc.blocks
      root = e := by
  have hfull := writeData_readData_roundtrip LinkedBlock.BLOCK_DATA_SIZE a root
    (encodeEngine e) BLOCK_DATA_SIZE_pos hroot
  set B := LinkedBlock.BLOCK_DATA_SIZE
  set blocks2 := (writeData B (LinkedBlockWriter.reset (LinkedBlockWriter.make a root))
    (encodeEngine e)).alloc.blocks with hbl
  set pl := enginePayload e with hpl
  have hlen : (encodeEngine e).length = 1 + pl.length := by
    simp [encodeEngine, Nat.add_comm]
  rw [hlen] at hfull
  have hsplit := congrArg Prod.fst (readData_add B ⟨blocks2, root, 0⟩ 1 pl.length)
  rw [hfull] at hsplit
  have hhdr : (readData B ⟨blocks2, root, 0⟩ 1).1.length = 1 := readData_length B _ 1
  obtain ⟨x, hx⟩ := List.length_eq_one.mp hhdr
  rw [hx, List.singleton_append] at hsplit
  have henc : encodeEngine e = pl.length :: pl := rfl
  rw [henc] at hsplit
  injection hsplit with hx1 hx2
  simp only [loadFromStream]
  rw [hx]
  simp only [List.headD_cons]
  rw [← hx1, ← hx2, decodePayload_enginePayload]

/-- After a dirty persist, the storage descriptor's root pointer is
nonzero and reloading from the descriptor recovers the engine state. -/
theorem getStorageInfo_load (st : HNSWState) (hd : st.is_dirty = true)
    (hroot : st.root_block_ptr ≤ st.alloc.nextFree) :
    (HNSWIndex.GetStorageInfo st).2.root ≠ 0 ∧
      (HNSWIndex.load (HNSWIndex.GetStorageInfo st).2).engine = st.engine := by
  simp only [HNSWIndex.GetStorageInfo, persist_dirty_eq st hd]
  set ra := if st.root_block_ptr = 0 then st.alloc.new else (st.root_block_ptr, st.alloc)
    with hra
  have hra1 : 1 ≤ ra.1 ∧ ra.1 ≤ ra.2.nextFree := by
    rw [hra]
    by_cases hz : st.root_block_ptr = 0
    · simp [hz, AllocState.new]
    · simp only [if_neg hz]
      exact ⟨Nat.one_le_iff_ne_zero.mpr hz, hroot⟩
  set w := writeData LinkedBlock.BLOCK_DATA_SIZE
    (LinkedBlockWriter.reset (LinkedBlockWriter.make ra.2 ra.1)) (encodeEngine st.engine)
    with hw
  have hnf : ra.2.nextFree ≤ w.alloc.nextFree := by
    have h := writeData_nextFree_le LinkedBlock.BLOCK_DATA_SIZE (encodeEngine st.engine)
      (LinkedBlockWriter.reset (LinkedBlockWriter.make ra.2 ra.1))
    exact h
  have hne : w.alloc.nextFree ≠ 0 := by omega
  constructor
  · exact by omega
  · show (HNSWIndex.load ⟨ra.1, w.alloc.blocks, w.alloc.nextFree⟩).engine = st.engine
    rw [HNSWIndex.load]
    have hbe : IndexStorageInfo.buffersEmpty ⟨ra.1, w.alloc.blocks, w.alloc.nextFree⟩ = false := by
      simp [IndexStorageInfo.buffersEmpty, hne]
    simp only [hbe, if_neg, Bool.false_eq_true, if_false]
    exact persist_roundtrip_core ra.2 ra.1 st.engine hra1.2

/-- C2: PersistToDisk state machine and idempotence.  When the index is
Clean, `PersistToDisk` leaves the state unchanged.  When it is Dirty, it
transitions to Clean, leaves the engine untouched, allocates a root block
exactly when the root pointer is null (keeping it otherwise), and
serializes the full current engine state into the linked block chain — the
chain rooted at the resulting root pointer reads back byte-for-byte as the
engine's serialization stream.  Hence two consecutive calls with no
intervening mutation serialize only once: the second call is the identity.
The hypothesis is the allocator-validity invariant that the root pointer,
when set, was handed out by the index's own allocator. -/
theorem C2_persist_state_machine (st : HNSWState)
    (hroot : st.root_block_ptr ≤ st.alloc.nextFree) :
    (st.is_dirty = false → HNSWIndex.PersistToDisk st = st) ∧
    (st.is_dirty = true →
      (HNSWIndex.PersistToDisk st).is_dirty = false ∧
      (HNSWIndex.PersistToDisk st).engine = st.engine ∧
      (st.root_block_ptr = 0 →
        (HNSWIndex.PersistToDisk st).root_block_ptr = st.alloc.new.1) ∧
      (st.root_block_ptr ≠ 0 →
        (HNSWIndex.PersistToDisk st).root_block_ptr = st.root_block_ptr) ∧
      (readData LinkedBlock.BLOCK_DATA_SIZE
        ⟨(HNSWIndex.PersistToDisk st).alloc.blocks,
          (HNSWIndex.PersistToDisk st).root_block_ptr, 0⟩
        (encodeEngine st.engine).length).1 = encodeEngine st.engine) ∧
    HNSWIndex.PersistToDisk (HNSWIndex.PersistToDisk st) = HNSWIndex.PersistToDisk st := by
  refine ⟨persist_clean st, ?_, persist_idem st⟩
  intro hd
  rw [persist_dirty_eq st hd]
  by_cases hz : st.root_block_ptr = 0
  · refine ⟨rfl, rfl, fun _ => by rw [if_pos hz], fun hnz => absurd hz hnz, ?_⟩
    rw [if_pos hz]
    exact writeData_readData_roundtrip _ st.alloc.new.2 st.alloc.new.1 (encodeEngine st.engine)
      BLOCK_DATA_SIZE_pos (Nat.le_refl _)
  · refine ⟨rfl, rfl, fun h0 => absurd h0 hz, fun _ => by rw [if_neg hz], ?_⟩
    rw [if_neg hz]
    exact writeData_readData_roundtrip _ st.alloc st.root_block_ptr (encodeEngine st.engine)
      BLOCK_DATA_SIZE_pos hroot

/-- C10 (implicit): short reads never happen.  `ReadData`'s loop runs
until exactly the requested number of bytes has been copied and returns
exactly that count, whatever the chain's actual extent (pointers are
followed with no validity check), so the short-read corruption check in
the `load_from_stream` callback always succeeds and its failure branch is
unreachable. -/
theorem C10_no_short_reads (B : Nat) (r : LinkedBlockReader) (n : Nat) :
    (readData B r n).1.length = n ∧ loadStreamCheck B r n = true := by
  refine ⟨readData_length B r n, ?_⟩
  simp [loadStreamCheck, readData_length]

/-- C3 counterexample: an index holding zero elements that is in the Dirty
state (reachable e.g. by inserting a row and deleting it again before the
checkpoint) persists a NONZERO root pointer — `PersistToDisk` allocates a
root block whenever the index is dirty, regardless of the element count —
refuting the claim that persisting every zero-element index yields a
null/zero root pointer. -/
theorem C3_counterexample :
    (HNSWState.mk Engine.make 0 true 0 AllocState.fresh).engine.size = 0 ∧
      (HNSWIndex.GetStorageInfo
        (HNSWState.mk Engine.make 0 true 0 AllocState.fresh)).2.root ≠ 0 := by
  exact ⟨rfl, by decide⟩

/-- C3 (amended): empty-index round trip, split by dirtiness.  A freshly
created index (zero elements, Clean) persists a descriptor whose root
pointer is null/zero; loading any descriptor whose allocator metadata
records no written block yields an empty index; and an empty index that is
Dirty persists a nonzero root pointer whose stream deserializes back to
the empty engine, so it too reloads with zero elements. -/
theorem C3_amended_empty_roundtrip :
    (∀ est, (HNSWIndex.create est).engine.size = 0 ∧
      (HNSWIndex.GetStorageInfo (HNSWIndex.create est)).2.root = 0) ∧
    (∀ info : IndexStorageInfo, info.buffersEmpty = true →
      (HNSWIndex.load info).engine.size = 0) ∧
    (∀ st : HNSWState, st.engine.size = 0 → st.is_dirty = true →
      st.root_block_ptr ≤ st.alloc.nextFree →
      (HNSWIndex.GetStorageInfo st).2.root ≠ 0 ∧
        (HNSWIndex.load (HNSWIndex.GetStorageInfo st).2).engine.size = 0) := by
  refine ⟨?_, ?_, ?_⟩
  · intro est
    refine ⟨rfl, ?_⟩
    have h := persist_clean (HNSWIndex.create est) rfl
    simp only [HNSWIndex.GetStorageInfo]
    rw [h]
    rfl
  · intro info hbe
    simp [HNSWIndex.load, hbe, Engine.size, Engine.make]
  · intro st hsz hd hroot
    obtain ⟨h1, h2⟩ := getStorageInfo_load st hd hroot
    exact ⟨h1, by rw [h2]; exact hsz⟩

/-!
## Construct / Delete lemmas
-/

theorem nextPowerOfTwoAux_spec (n : Nat) :
    ∀ (f i : Nat), n ≤ 2 ^ i * 2 ^ f →
      ∃ k, nextPowerOfTwoAux n f (2 ^ i) = 2 ^ k ∧ n ≤ 2 ^ k ∧
        ∀ m, i ≤ m → n ≤ 2 ^ m → 2 ^ k ≤ 2 ^ m := by
  intro f
  induction f with
  | zero =>
    intro i hn
    exact ⟨i, rfl, by simpa using hn,
      fun m him _ => Nat.pow_le_pow_right (by norm_num) him⟩
  | succ f ih =>
    intro i hn
    by_cases hle : n ≤ 2 ^ i
    · exact ⟨i, by rw [nextPowerOfTwoAux, if_pos hle], hle,
        fun m him _ => Nat.pow_le_pow_right (by norm_num) him⟩
    · have hn2 : n ≤ 2 ^ (i + 1) * 2 ^ f := by
        calc n ≤ 2 ^ i * 2 ^ (f + 1) := hn
        _ = 2 ^ (i + 1) * 2 ^ f := by ring
      obtain ⟨k, hk1, hk2, hk3⟩ := ih (i + 1) hn2
      refine ⟨k, ?_, hk2, ?_⟩
      · rw [nextPowerOfTwoAux, if_neg hle,
          show 2 * 2 ^ i = 2 ^ (i + 1) by ring]
        exact hk1
      · intro m him hm
        rcases Nat.eq_or_lt_of_le him with heq | hlt
        · exact absurd (heq ▸ hm) hle
        · exact hk3 m hlt hm

/-- `NextPowerOfTwo n` is the least power of two that is ≥ `n`. -/
theorem NextPowerOfTwo_spec (n : Nat) :
    ∃ k, NextPowerOfTwo n = 2 ^ k ∧ n ≤ 2 ^ k ∧ ∀ m, n ≤ 2 ^ m → 2 ^ k ≤ 2 ^ m := by
  obtain ⟨k, hk1, hk2, hk3⟩ := nextPowerOfTwoAux_spec n n 0
    (by simpa using Nat.le_of_lt (Nat.lt_two_pow n))
  refine ⟨k, ?_, hk2, fun m hm => hk3 m (Nat.zero_le m) hm⟩
  rw [NextPowerOfTwo, show (1 : Nat) = 2 ^ 0 from rfl]
  exact hk1

theorem NextPowerOfTwo_le (n : Nat) : n ≤ NextPowerOfTwo n := by
  obtain ⟨k, hk1, hk2, _⟩ := NextPowerOfTwo_spec n
  rw [hk1]
  exact hk2

/-- A search whose limit covers the whole element count returns every
stored identifier (for any query): the sorted sequence is a permutation of
the stored pairs and the cut keeps all of it. -/
theorem search_complete (e : Engine) (q : List Int) (limit : Nat)
    (h : e.size ≤ limit) : ∀ kv ∈ e.keys, kv.1 ∈ e.search q limit := by
  intro kv hkv
  rw [Engine.search]
  have hperm := List.perm_insertionSort (fun a b => distSq q a.2 ≤ distSq q b.2) e.keys
  have hlen : ((e.keys.insertionSort
      (fun a b => distSq q a.2 ≤ distSq q b.2)).map Prod.fst).length ≤ limit := by
    rw [List.length_map, hperm.length_eq]
    exact h
  rw [List.take_of_length_le hlen]
  exact List.mem_map_of_mem Prod.fst (hperm.mem_iff.mpr hkv)

theorem constructResize_keys (st : HNSWState) (c : Nat) :
    (constructResize st c).keys = st.engine.keys := by
  rw [constructResize]
  split
  · rfl
  · rfl

theorem addAll_ok_keys (e : Engine) (tid : Nat) (l : List (Int × List Int))
    (h : e.size + l.length ≤ e.cap) :
    addAll e tid l = (⟨l.reverse ++ e.keys, e.cap⟩, none) := by
  induction l generalizing e with
  | nil => simp [addAll]
  | cons p rest ih =>
    obtain ⟨r, v⟩ := p
    have hlt : e.keys.length < e.cap := by
      simp only [Engine.size, List.length_cons] at h
      omega
    simp only [addAll, Engine.add, if_pos hlt]
    rw [ih ⟨(r, v) :: e.keys, e.cap⟩ (by
      simp only [Engine.size, List.length_cons] at h ⊢
      omega)]
    simp [List.reverse_cons, List.append_assoc]

theorem addAll_ok_size (e : Engine) (tid : Nat) (l : List (Int × List Int)) (e2 : Engine)
    (h : addAll e tid l = (e2, none)) : e2.size = e.size + l.length := by
  induction l generalizing e with
  | nil =>
    simp only [addAll, Prod.mk.injEq] at h
    rw [← h.1]
    simp
  | cons p rest ih =>
    obtain ⟨r, v⟩ := p
    simp only [addAll] at h
    cases hadd : Engine.add e r v tid with
    | ok e1 =>
      rw [hadd] at h
      have hs := ih e1 h
      have hsz : e1.size = e.size + 1 := by
        rw [Engine.add] at hadd
        split at hadd
        · injection hadd with he
          rw [← he]
          simp [Engine.size]
        · exact Except.noConfusion hadd
      simp only [List.length_cons]
      omega
    | error msg =>
      rw [hadd] at h
      simp at h

theorem addAll_keys_mono (e : Engine) (tid : Nat) (l : List (Int × List Int))
    (p : Int × List Int) (hp : p ∈ e.keys) : p ∈ (addAll e tid l).1.keys := by
  induction l generalizing e with
  | nil => simpa [addAll] using hp
  | cons q rest ih =>
    obtain ⟨r, v⟩ := q
    simp only [addAll]
    cases hadd : Engine.add e r v tid with
    | ok e1 =>
      apply ih
      rw [Engine.add] at hadd
      split at hadd
      · injection hadd with he
        rw [← he]
        exact List.mem_cons_of_mem _ hp
      · exact Except.noConfusion hadd
    | error msg => simpa using hp

theorem addAll_ok_mem (e : Engine) (tid : Nat) (l : List (Int × List Int)) (e2 : Engine)
    (h : addAll e tid l = (e2, none)) : ∀ p ∈ l, p ∈ e2.keys := by
  induction l generalizing e with
  | nil => intro p hp; simp at hp
  | cons q rest ih =>
    intro p hp
    obtain ⟨r, v⟩ := q
    simp only [addAll] at h
    cases hadd : Engine.add e r v tid with
    | ok e1 =>
      rw [hadd] at h
      rcases List.mem_cons.mp hp with hpq | hpr
      · have hin : p ∈ e1.keys := by
          rw [Engine.add] at hadd
          split at hadd
          · injection hadd with he
            rw [← he, hpq]
            exact List.mem_cons_self _ _
          · exact Except.noConfusion hadd
        have hok : addAll e1 tid rest = (e2, none) := h
        have hm := addAll_keys_mono e1 tid rest p hin
        rw [hok] at hm
        exact hm
      · exact ih e1 h p hpr
    | error msg =>
      rw [hadd] at h
      simp at h

theorem addAll_append_ok (e : Engine) (tid : Nat) (l1 l2 : List (Int × List Int)) (e1 : Engine)
    (h : addAll e tid l1 = (e1, none)) :
    addAll e tid (l1 ++ l2) = addAll e1 tid l2 := by
  induction l1 generalizing e with
  | nil =>
    simp only [addAll, Prod.mk.injEq] at h
    rw [List.nil_append, h.1]
  | cons q rest ih =>
    obtain ⟨r, v⟩ := q
    simp only [addAll, List.cons_append] at h ⊢
    cases hadd : Engine.add e r v tid with
    | ok e2 =>
      rw [hadd] at h
      have hok : addAll e2 tid rest = (e1, none) := h
      exact ih e2 hok
    | error msg =>
      rw [hadd] at h
      simp at h

theorem removeAll_spec (e : Engine) (rids : List Int) :
    (removeAll e rids).keys = e.keys.filter (fun kv => !(rids.contains kv.1)) ∧
      (removeAll e rids).cap = e.cap := by
  induction rids generalizing e with
  | nil => simp [removeAll]
  | cons r rs ih =>
    have hstep : removeAll e (r :: rs) = removeAll (e.remove r) rs := rfl
    obtain ⟨ihk, ihc⟩ := ih (e.remove r)
    refine ⟨?_, by rw [hstep, ihc]; rfl⟩
    rw [hstep, ihk, Engine.remove, List.filter_filter]
    congr 1
    funext kv
    by_cases hkr : kv.1 = r <;>
      simp [List.contains_cons, Bool.not_or, Bool.and_comm, hkr]

theorem removeAll_idem (e : Engine) (rids : List Int) :
    removeAll (removeAll e rids) rids = removeAll e rids := by
  obtain ⟨hk, hc⟩ := removeAll_spec e rids
  obtain ⟨hk2, hc2⟩ := removeAll_spec (removeAll e rids) rids
  have hkeys : (removeAll (removeAll e rids) rids).keys = (removeAll e rids).keys := by
    rw [hk2, hk, List.filter_filter]
    congr 1
    funext kv
    simp [Bool.and_self]
  have hcap : (removeAll (removeAll e rids) rids).cap = (removeAll e rids).cap := hc2
  exact Engine.ext hkeys hcap

/-- An index holding one element (id 10 at the origin) at full capacity,
with an accurate element-count cache. -/
def wPrior : HNSWState := ⟨⟨[(10, [0])], 1⟩, 1, false, 0, AllocState.fresh⟩

/-- A one-element batch whose vector is far from the origin. -/
def wFar : List (Int × List Int) := [(12, [100])]

/-- C4 counterexample: with a nonempty prior index, an inserted identifier
need not be findable by a search whose limit is merely ≥ the batch size N.
Here the capacity-growth hypotheses hold (accurate cache, capacity 1 <
1 + 1) and the one-element batch inserts successfully after the resize,
but the single prior element (id 10, vector [0]) is strictly nearer the
probe [0] than the newly inserted (id 12, vector [100]), so the
distance-ordered search with limit 1 = N returns only id 10. -/
theorem C4_counterexample :
    wPrior.index_size = wPrior.engine.size ∧
      wPrior.engine.capacity < wPrior.engine.size + wFar.length ∧
      (HNSWIndex.Construct wPrior wFar 0).2 = none ∧
      wFar.length ≤ 1 ∧
      ((12 : Int), ([100] : List Int)) ∈ wFar ∧
      ¬((12 : Int) ∈ (HNSWIndex.Construct wPrior wFar 0).1.engine.search [0] 1) := by
  decide

/-- C4 (amended): capacity growth never loses data, with the findability
bound corrected.  For a batch insert whose post-insert element count
exceeds the current engine capacity (detected by the optimistic check
against the cached size, whose accuracy is the element-count invariant
hypothesis), `Construct` re-checks and grows the capacity to the next
power of two ≥ the new element count; the batch then succeeds, the element
count equals the prior count plus the batch size, the capacity covers it,
and every inserted row identifier is returned by every search (any query)
whose limit is at least the post-insert element count — for an index that
started empty, that is exactly limit ≥ N; with prior elements, limit only
≥ N can miss inserted identifiers ranked behind nearer prior elements
(`C4_counterexample`). -/
theorem C4_capacity_growth (st : HNSWState) (batch : List (Int × List Int)) (tid : Nat)
    (hinv : st.index_size = st.engine.size)
    (hshort : st.engine.capacity < st.engine.size + batch.length) :
    (HNSWIndex.Construct st batch tid).2 = none ∧
      (HNSWIndex.Construct st batch tid).1.engine.size = st.engine.size + batch.length ∧
      (HNSWIndex.Construct st batch tid).1.engine.capacity
        = NextPowerOfTwo (st.engine.size + batch.length) ∧
      (HNSWIndex.Construct st batch tid).1.engine.size
        ≤ (HNSWIndex.Construct st batch tid).1.engine.capacity ∧
      (∀ (q : List Int) (limit : Nat), st.engine.size + batch.length ≤ limit →
        ∀ p ∈ batch,
          p.1 ∈ (HNSWIndex.Construct st batch tid).1.engine.search q limit) := by
  have hle : st.engine.size + batch.length
      ≤ NextPowerOfTwo (st.engine.size + batch.length) := NextPowerOfTwo_le _
  have hres : constructResize st batch.length =
      st.engine.reserve (NextPowerOfTwo (st.engine.size + batch.length)) := by
    simp only [constructResize, hinv]
    split
    · rfl
    · omega
  have hcap : (st.engine.reserve (NextPowerOfTwo (st.engine.size + batch.length))).cap
      = NextPowerOfTwo (st.engine.size + batch.length) :=
    Nat.max_eq_right (le_trans (Nat.le_of_lt hshort) hle)
  have haddOk :
      addAll (st.engine.reserve (NextPowerOfTwo (st.engine.size + batch.length))) tid batch
        = (⟨batch.reverse ++ st.engine.keys,
            (st.engine.reserve (NextPowerOfTwo (st.engine.size + batch.length))).cap⟩, none) := by
    apply addAll_ok_keys
    rw [hcap]
    exact hle
  have hC : HNSWIndex.Construct st batch tid =
      (⟨⟨batch.reverse ++ st.engine.keys,
          (st.engine.reserve (NextPowerOfTwo (st.engine.size + batch.length))).cap⟩,
        st.index_size + batch.length, true, st.root_block_ptr, st.alloc⟩, none) := by
    simp only [HNSWIndex.Construct, hres, haddOk]
  refine ⟨?_, ?_, ?_, ?_, ?_⟩
  · rw [hC]
  · rw [hC]
    simp [Engine.size, Nat.add_comm]
  · rw [hC]
    simpa [Engine.capacity] using hcap
  · rw [hC]
    show (batch.reverse ++ st.engine.keys).length
      ≤ (st.engine.reserve (NextPowerOfTwo (st.engine.size + batch.length))).cap
    rw [hcap, List.length_append, List.length_reverse]
    have hle2 : st.engine.keys.length + batch.length
        ≤ NextPowerOfTwo (st.engine.size + batch.length) := hle
    omega
  · intro q limit hlim p hp
    rw [hC]
    refine search_complete _ q limit ?_ p ?_
    · show (batch.reverse ++ st.engine.keys).length ≤ limit
      rw [List.length_append, List.length_reverse]
      have hlim2 : st.engine.keys.length + batch.length ≤ limit := hlim
      omega
    · exact List.mem_append_left _ (List.mem_reverse.mpr hp)

/-- C5: element-count cache invariant.  After construction (fresh or
loaded), after a successful batch insert (given the invariant held
before), and after every delete, compaction and drop, the atomic
`index_size` cache equals the engine's true element count
(`index.size()`). -/
theorem C5_size_cache_invariant :
    (∀ est, (HNSWIndex.create est).index_size = (HNSWIndex.create est).engine.size) ∧
    (∀ info, (HNSWIndex.load info).index_size = (HNSWIndex.load info).engine.size) ∧
    (∀ (st : HNSWState) (batch : List (Int × List Int)) (tid : Nat),
      st.index_size = st.engine.size →
      (HNSWIndex.Construct st batch tid).2 = none →
      (HNSWIndex.Construct st batch tid).1.index_size
        = (HNSWIndex.Construct st batch tid).1.engine.size) ∧
    (∀ st rids, (HNSWIndex.Delete st rids).index_size = (HNSWIndex.Delete st rids).engine.size) ∧
    (∀ st, (HNSWIndex.Compact st).index_size = (HNSWIndex.Compact st).engine.size) ∧
    (∀ st, (HNSWIndex.CommitDrop st).index_size = (HNSWIndex.CommitDrop st).engine.size) := by
  refine ⟨fun est => rfl, fun info => rfl, ?_, fun st rids => rfl, fun st => rfl, fun st => rfl⟩
  intro st batch tid hinv hok
  simp only [HNSWIndex.Construct] at hok ⊢
  have h : addAll (constructResize st batch.length) tid batch
      = ((addAll (constructResize st batch.length) tid batch).1, none) := by
    rw [← hok]
  have hsz := addAll_ok_size (constructResize st batch.length) tid batch _ h
  rw [hsz]
  have hrk : (constructResize st batch.length).size = st.engine.size := by
    simp [Engine.size, constructResize_keys]
  rw [hrk, hinv]

/-- C6: dirty transitions.  A successful batch insert, any delete, and any
compaction leave the index in the Dirty state. -/
theorem C6_dirty_transitions :
    (∀ (st : HNSWState) (batch : List (Int × List Int)) (tid : Nat),
      (HNSWIndex.Construct st batch tid).2 = none →
      (HNSWIndex.Construct st batch tid).1.is_dirty = true) ∧
    (∀ st rids, (HNSWIndex.Delete st rids).is_dirty = true) ∧
    (∀ st, (HNSWIndex.Compact st).is_dirty = true) :=
  ⟨fun _ _ _ _ => rfl, fun _ _ => rfl, fun _ => rfl⟩

/-- C7: non-atomic batch insert failure.  If the engine accepts a prefix
of the batch and then reports an insertion failure on the next row,
`Construct` surfaces the wrapped internal-consistency error and every pair
of the successfully inserted prefix remains in the engine — no rollback
happens. -/
theorem C7_no_rollback (st : HNSWState) (pre rest : List (Int × List Int))
    (bad : Int × List Int) (tid : Nat) (e1 : Engine) (msg : String)
    (hpre : addAll (constructResize st (pre ++ bad :: rest).length) tid pre = (e1, none))
    (hbad : Engine.add e1 bad.1 bad.2 tid = .error msg) :
    (HNSWIndex.Construct st (pre ++ bad :: rest) tid).2 =
      some ("Failed to add to the HNSW index: " ++ msg) ∧
    ∀ p ∈ pre, p ∈ (HNSWIndex.Construct st (pre ++ bad :: rest) tid).1.engine.keys := by
  obtain ⟨rb, vb⟩ := bad
  have hsplit := addAll_append_ok _ tid pre ((rb, vb) :: rest) e1 hpre
  have hfail : addAll e1 tid ((rb, vb) :: rest) =
      (e1, some ("Failed to add to the HNSW index: " ++ msg)) := by
    simp only [addAll]
    rw [show Engine.add e1 rb vb tid = Except.error msg from hbad]
  constructor
  · simp only [HNSWIndex.Construct]
    rw [hsplit, hfail]
  · intro p hp
    simp only [HNSWIndex.Construct]
    rw [hsplit, hfail]
    exact addAll_ok_mem _ tid pre e1 hpre p hp

/-- C8: delete idempotency.  `Delete` removes each listed identifier that
is present — afterwards none of the listed identifiers remains in the
engine — while every pair whose identifier was not listed is kept;
removing an absent identifier leaves the engine unchanged (and `Delete` is
total: the per-identifier engine result is ignored, so the call never
fails); deleting the same identifiers twice produces exactly the same
index state as deleting them once, and in particular the same subsequent
search results. -/
theorem C8_delete_idempotent :
    (∀ (st : HNSWState) (rids : List Int) (r : Int), r ∈ rids →
      r ∉ (HNSWIndex.Delete st rids).engine.keys.map Prod.fst) ∧
    (∀ (st : HNSWState) (rids : List Int) (kv : Int × List Int), kv ∈ st.engine.keys →
      kv.1 ∉ rids → kv ∈ (HNSWIndex.Delete st rids).engine.keys) ∧
    (∀ (st : HNSWState) (r : Int), r ∉ st.engine.keys.map Prod.fst →
      (HNSWIndex.Delete st [r]).engine = st.engine) ∧
    (∀ st rids, HNSWIndex.Delete (HNSWIndex.Delete st rids) rids = HNSWIndex.Delete st rids) ∧
    (∀ (st : HNSWState) (rids : List Int) (q : List Int) (limit : Nat),
      (HNSWIndex.Delete (HNSWIndex.Delete st rids) rids).engine.search q limit =
        (HNSWIndex.Delete st rids).engine.search q limit) := by
  have htwice : ∀ st rids,
      HNSWIndex.Delete (HNSWIndex.Delete st rids) rids = HNSWIndex.Delete st rids := by
    intro st rids
    simp only [HNSWIndex.Delete]
    rw [removeAll_idem]
  have hkeys : ∀ (st : HNSWState) (rids : List Int),
      (HNSWIndex.Delete st rids).engine.keys
        = st.engine.keys.filter (fun kv => !(rids.contains kv.1)) := by
    intro st rids
    show (removeAll st.engine rids).keys = _
    exact (removeAll_spec st.engine rids).1
  refine ⟨?_, ?_, ?_, htwice, fun st rids q limit => by rw [htwice st rids]⟩
  · intro st rids r hr hmem
    rw [hkeys] at hmem
    obtain ⟨kv, hkv, hfst⟩ := List.mem_map.mp hmem
    obtain ⟨_, hpred⟩ := List.mem_filter.mp hkv
    have hni : kv.1 ∉ rids := by simpa using hpred
    rw [hfst] at hni
    exact hni hr
  · intro st rids kv hkv hni
    rw [hkeys]
    refine List.mem_filter.mpr ⟨hkv, ?_⟩
    simpa using hni
  · intro st r hr
    have hfilter : st.engine.keys.filter (fun kv => kv.1 != r) = st.engine.keys := by
      apply List.filter_eq_self.mpr
      intro kv hkv
      have hne : kv.1 ≠ r := fun heq => hr (heq ▸ List.mem_map_of_mem Prod.fst hkv)
      simpa using hne
    show Engine.remove st.engine r = st.engine
    rw [Engine.remove, hfilter]

/-!
## Concrete witness states
-/

/-- A dirty index holding two elements, never persisted. -/
def wDirty : HNSWState := ⟨⟨[(3, [1, 2]), (4, [5, 6])], 4⟩, 2, true, 0, AllocState.fresh⟩

/-- A dirty index holding zero elements (e.g. after an insert and a
delete), never persisted. -/
def wEmptyDirty : HNSWState := ⟨Engine.make, 0, true, 0, AllocState.fresh⟩

/-- A clean empty index with zero reserved capacity. -/
def wSmall : HNSWState := ⟨⟨[], 0⟩, 0, false, 0, AllocState.fresh⟩

/-- A clean empty index with capacity for two more elements. -/
def wNoResize : HNSWState := ⟨⟨[], 2⟩, 0, false, 0, AllocState.fresh⟩

/-- An index whose engine is one short of capacity while the cached size
lags behind (as after an aborted batch), so the optimistic check skips the
resize and the engine can refuse an insert. -/
def wFullCache : HNSWState := ⟨⟨[(9, [0]), (8, [0])], 3⟩, 0, false, 0, AllocState.fresh⟩

/-- An index holding the single identifier `1`. -/
def wKeys : HNSWState := ⟨⟨[(1, [0])], 1⟩, 1, false, 0, AllocState.fresh⟩

/-- A two-element batch of (row id, vector) pairs. -/
def wBatch : List (Int × List Int) := [(5, [1]), (6, [2])]

/-- A one-element batch. -/
def wB1 : List (Int × List Int) := [(1, [3])]

/-!
## Witnesses
-/

theorem C1_witness :
    0 < 3 ∧ (0 : Nat) ≤ AllocState.fresh.nextFree ∧
      (readData 3
        ⟨(writeData 3 (LinkedBlockWriter.reset (LinkedBlockWriter.make AllocState.fresh 0))
            [7, 8, 9, 10, 11, 12, 13]).alloc.blocks, 0, 0⟩
        [7, 8, 9, 10, 11, 12, 13].length).1 = [7, 8, 9, 10, 11, 12, 13] :=
  ⟨by decide, by decide,
    C1_block_chain_roundtrip 3 AllocState.fresh 0 [7, 8, 9, 10, 11, 12, 13]
      (by decide) (by decide)⟩

theorem C2_witness :
    wDirty.root_block_ptr ≤ wDirty.alloc.nextFree ∧
      ((wDirty.is_dirty = false → HNSWIndex.PersistToDisk wDirty = wDirty) ∧
      (wDirty.is_dirty = true →
        (HNSWIndex.PersistToDisk wDirty).is_dirty = false ∧
        (HNSWIndex.PersistToDisk wDirty).engine = wDirty.engine ∧
        (wDirty.root_block_ptr = 0 →
          (HNSWIndex.PersistToDisk wDirty).root_block_ptr = wDirty.alloc.new.1) ∧
        (wDirty.root_block_ptr ≠ 0 →
          (HNSWIndex.PersistToDisk wDirty).root_block_ptr = wDirty.root_block_ptr) ∧
        (readData LinkedBlock.BLOCK_DATA_SIZE
          ⟨(HNSWIndex.PersistToDisk wDirty).alloc.blocks,
            (HNSWIndex.PersistToDisk wDirty).root_block_ptr, 0⟩
          (encodeEngine wDirty.engine).length).1 = encodeEngine wDirty.engine) ∧
      HNSWIndex.PersistToDisk (HNSWIndex.PersistToDisk wDirty)
        = HNSWIndex.PersistToDisk wDirty) :=
  ⟨by decide, C2_persist_state_machine wDirty (by decide)⟩

theorem C3_witness :
    wEmptyDirty.engine.size = 0 ∧ wEmptyDirty.is_dirty = true ∧
      wEmptyDirty.root_block_ptr ≤ wEmptyDirty.alloc.nextFree ∧
      ((HNSWIndex.GetStorageInfo wEmptyDirty).2.root ≠ 0 ∧
        (HNSWIndex.load (HNSWIndex.GetStorageInfo wEmptyDirty).2).engine.size = 0) :=
  ⟨rfl, rfl, by decide,
    C3_amended_empty_roundtrip.2.2 wEmptyDirty rfl rfl (by decide)⟩

theorem C4_witness :
    wSmall.index_size = wSmall.engine.size ∧
      wSmall.engine.capacity < wSmall.engine.size + wBatch.length ∧
      ((HNSWIndex.Construct wSmall wBatch 0).2 = none ∧
        (HNSWIndex.Construct wSmall wBatch 0).1.engine.size
          = wSmall.engine.size + wBatch.length ∧
        (HNSWIndex.Construct wSmall wBatch 0).1.engine.capacity
          = NextPowerOfTwo (wSmall.engine.size + wBatch.length) ∧
        (HNSWIndex.Construct wSmall wBatch 0).1.engine.size
          ≤ (HNSWIndex.Construct wSmall wBatch 0).1.engine.capacity ∧
        (∀ (q : List Int) (limit : Nat), wSmall.engine.size + wBatch.length ≤ limit →
          ∀ p ∈ wBatch,
            p.1 ∈ (HNSWIndex.Construct wSmall wBatch 0).1.engine.search q limit)) :=
  ⟨rfl, by decide, C4_capacity_growth wSmall wBatch 0 rfl (by decide)⟩

theorem C5_witness :
    wNoResize.index_size = wNoResize.engine.size ∧
      (HNSWIndex.Construct wNoResize wB1 0).2 = none ∧
      (HNSWIndex.Construct wNoResize wB1 0).1.index_size
        = (HNSWIndex.Construct wNoResize wB1 0).1.engine.size :=
  ⟨rfl, by decide, C5_size_cache_invariant.2.2.1 wNoResize wB1 0 rfl (by decide)⟩

theorem C6_witness :
    (HNSWIndex.Construct wNoResize wB1 0).2 = none ∧
      (HNSWIndex.Construct wNoResize wB1 0).1.is_dirty = true :=
  ⟨by decide, C6_dirty_transitions.1 wNoResize wB1 0 (by decide)⟩

theorem C7_witness :
    addAll (constructResize wFullCache ([((1 : Int), [(5 : Int)])]
        ++ ((2 : Int), [(6 : Int)]) :: []).length) 0 [((1 : Int), [(5 : Int)])]
      = (⟨[(1, [5]), (9, [0]), (8, [0])], 3⟩, none) ∧
    Engine.add (⟨[(1, [5]), (9, [0]), (8, [0])], 3⟩ : Engine)
        ((2 : Int), [(6 : Int)]).1 ((2 : Int), [(6 : Int)]).2 0
      = .error "Reserve capacity ahead of insertions" ∧
    ((HNSWIndex.Construct wFullCache ([((1 : Int), [(5 : Int)])]
        ++ ((2 : Int), [(6 : Int)]) :: []) 0).2 =
      some ("Failed to add to the HNSW index: " ++ "Reserve capacity ahead of insertions") ∧
      ∀ p ∈ [((1 : Int), [(5 : Int)])],
        p ∈ (HNSWIndex.Construct wFullCache ([((1 : Int), [(5 : Int)])]
          ++ ((2 : Int), [(6 : Int)]) :: []) 0).1.engine.keys) :=
  ⟨by decide, rfl,
    C7_no_rollback wFullCache [((1 : Int), [(5 : Int)])] [] ((2 : Int), [(6 : Int)]) 0
      ⟨[(1, [5]), (9, [0]), (8, [0])], 3⟩ "Reserve capacity ahead of insertions"
      (by decide) rfl⟩

theorem C8_witness :
    ((1 : Int) ∈ [(1 : Int)] ∧
      (1 : Int) ∉ (HNSWIndex.Delete wKeys [(1 : Int)]).engine.keys.map Prod.fst) ∧
    (((1 : Int), ([0] : List Int)) ∈ wKeys.engine.keys ∧
      ((1 : Int), ([0] : List Int)).1 ∉ [(2 : Int)] ∧
      ((1 : Int), ([0] : List Int)) ∈ (HNSWIndex.Delete wKeys [(2 : Int)]).engine.keys) ∧
    ((2 : Int) ∉ wKeys.engine.keys.map Prod.fst ∧
      (HNSWIndex.Delete wKeys [(2 : Int)]).engine = wKeys.engine) :=
  ⟨⟨by decide, C8_delete_idempotent.1 wKeys [(1 : Int)] 1 (by decide)⟩,
    ⟨by decide, by decide,
      C8_delete_idempotent.2.1 wKeys [(2 : Int)] ((1 : Int), ([0] : List Int))
        (by decide) (by decide)⟩,
    ⟨by decide, C8_delete_idempotent.2.2.1 wKeys 2 (by decide)⟩⟩

theorem C9_witness :
    0 < 2 ∧ 0 < 2 ∧ (0 : Nat) ≤ AllocState.fresh.nextFree ∧
      ([1, 2, 3, 4] : List Nat).length = 2 * 2 ∧
      ((writeData 2 (LinkedBlockWriter.reset (LinkedBlockWriter.make AllocState.fresh 0))
          [1, 2, 3, 4]).alloc.nextFree = AllocState.fresh.nextFree + 2 ∧
        (writeData 2 (LinkedBlockWriter.reset (LinkedBlockWriter.make AllocState.fresh 0))
          [1, 2, 3, 4]).position_in_block = 0 ∧
        (writeData 2 (LinkedBlockWriter.reset (LinkedBlockWriter.make AllocState.fresh 0))
          [1, 2, 3, 4]).current_pointer =
          (writeData 2 (LinkedBlockWriter.reset (LinkedBlockWriter.make AllocState.fresh 0))
            [1, 2, 3, 4]).alloc.nextFree ∧
        0 < (writeData 2 (LinkedBlockWriter.reset (LinkedBlockWriter.make AllocState.fresh 0))
          [1, 2, 3, 4]).current_pointer ∧
        (writeData 2 (LinkedBlockWriter.reset (LinkedBlockWriter.make AllocState.fresh 0))
          [1, 2, 3, 4]).alloc.blocks
          ((writeData 2 (LinkedBlockWriter.reset (LinkedBlockWriter.make AllocState.fresh 0))
            [1, 2, 3, 4]).current_pointer) = emptyBlock) :=
  ⟨by decide, by decide, by decide, by decide,
    C9_exact_boundary_overallocation 2 2 AllocState.fresh 0 [1, 2, 3, 4]
      (by decide) (by decide) (by decide) (by decide)⟩

end HNSW
